import Mathlib

set_option maxRecDepth 100000

/-!
Verification of the "99 Bottles of Beer" program (src/99/99.c).

The program is a single `main` that loops `n` from 99 down to 1, printing a
two-line verse (plus a blank line) per iteration, then prints two fixed
closing lines.  The definitions below are a shallow embedding of that code:
each `printf`/`puts` call becomes a Lean `String`, the loop becomes a
structurally recursive accumulator function, and the whole standard output
of a run is the string `output`.
-/

/-- The C conditional `n==1 ? "" : "s"` used for pluralizing "bottle". -/
def pluralSuffix (n : Nat) : String := if n = 1 then "" else "s"

/-- Line A of the verse for `n`: the first `printf` of the loop body,
`"%d bottle%s of beer on the wall, %d bottle%s of beer.\n"` applied to
`n, n==1?"":"s", n, n==1?"":"s"` (src/99/99.c line 5). -/
def lineA (n : Nat) : String :=
  Nat.repr n ++ " bottle" ++ pluralSuffix n ++ " of beer on the wall, " ++
  Nat.repr n ++ " bottle" ++ pluralSuffix n ++ " of beer.\n"

/-- Line B of the verse for `n` (together with the verse-terminating blank
line): the `if (n-1 > 0) printf(...) else printf(...)` of the loop body
(src/99/99.c lines 6-9).  Both branches end in `"\n\n"`. -/
def lineB (n : Nat) : String :=
  if n - 1 > 0 then
    "Take one down and pass it around, " ++ Nat.repr (n - 1) ++ " bottle" ++
      pluralSuffix (n - 1) ++ " of beer on the wall.\n\n"
  else
    "Take one down and pass it around, no more bottles of beer on the wall.\n\n"

/-- Everything the loop body prints for a given `n`. -/
def verse (n : Nat) : String := lineA n ++ lineB n

/-- The loop `for (int n = 99; n >= 1; --n)` as an accumulator recursion:
`loopFrom n acc` is the output accumulated after running the body for
`n, n-1, ..., 1` starting from already-printed text `acc`. -/
def loopFrom : Nat → String → String
  | 0, acc => acc
  | Nat.succ k, acc => loopFrom k (acc ++ verse (Nat.succ k))

/-- The two `puts` calls after the loop (src/99/99.c lines 11-12); `puts`
appends a newline. -/
def closing : String :=
  "No more bottles of beer on the wall, no more bottles of beer.\n" ++
  "Go to the store and buy some more, 99 bottles of beer on the wall.\n"

/-- The complete standard output of one run of the program. -/
def output : String := loopFrom 99 "" ++ closing

/-- The environment a process run could depend on (arguments, stdin,
date/time, a randomness seed).  `main` is `int main(void)`: it reads none
of these. -/
structure Env where
  args : List String
  stdinText : String
  time : Nat
  randSeed : Nat

/-- A run of the program in a given environment: the produced standard
output and the exit code (`return 0`).  The C code consults nothing in the
environment. -/
def runProgram (_ : Env) : String × Int := (output, 0)

/-- The loop state: the counter `n` and the text printed so far. -/
structure LoopState where
  n : Nat
  out : String

/-- One execution of the loop body followed by the update `--n`. -/
def loopStep (s : LoopState) : LoopState :=
  { n := s.n - 1, out := s.out ++ verse s.n }

/-- The values the counter has at each execution of the loop body, running
the guarded loop `while (n >= 1)` to completion. -/
def loopTrace (s : LoopState) : List Nat :=
  if _h : 1 ≤ s.n then s.n :: loopTrace (loopStep s) else []
  termination_by s.n
  decreasing_by simp [loopStep]; omega

/-- The state after the guarded loop `while (n >= 1)` exits. -/
def loopFinal (s : LoopState) : LoopState :=
  if _h : 1 ≤ s.n then loopFinal (loopStep s) else s
  termination_by s.n
  decreasing_by simp [loopStep]; omega

/-- The descending list `[n, n-1, ..., 1]`. -/
def descList : Nat → List Nat
  | 0 => []
  | Nat.succ k => Nat.succ k :: descList k

/-- The verses the program emits, in emission order, for counters
`n, n-1, ..., 1`. -/
def versesList : Nat → List String
  | 0 => []
  | Nat.succ k => verse (Nat.succ k) :: versesList k

/-- Concatenation of a list of strings, in order. -/
def concatAll : List String → String
  | [] => ""
  | s :: rest => s ++ concatAll rest

/-- Splits a character list at `'\n'`, tail-recursively:
`linesAux cs cur acc` scans `cs` with `cur` the (reversed) characters of
the current line and `acc` the (reversed) finished lines. -/
def linesAux : List Char → List Char → List String → List String
  | [], cur, acc => (String.mk cur.reverse :: acc).reverse
  | c :: rest, cur, acc =>
    if c = '\n' then linesAux rest [] (String.mk cur.reverse :: acc)
    else linesAux rest (c :: cur) acc

/-- The lines of a string: the segments between `'\n'` characters.  A
string ending in `'\n'` yields a final `""` segment after the last
newline. -/
def linesOf (s : String) : List String := linesAux s.data [] []

/-- Whether `pat` occurs at the start of `s`. -/
def leadsWith : List Char → List Char → Bool
  | [], _ => true
  | _ :: _, [] => false
  | p :: ps, c :: cs => p == c && leadsWith ps cs

/-- Tail-recursive worker counting the positions of `s` at which `pat`
begins. -/
def countOccsAux (pat : List Char) : List Char → Nat → Nat
  | [], acc => acc
  | c :: rest, acc =>
    if leadsWith pat (c :: rest) then countOccsAux pat rest (acc + 1)
    else countOccsAux pat rest acc

/-- The number of (possibly overlapping) occurrences of the nonempty
pattern `pat` as a contiguous substring of `s`. -/
def countOccs (pat s : List Char) : Nat := countOccsAux pat s 0

/-- Word-scanner transition: consumes the input characters, keeping the
(reversed) characters of the current word in `cur` and the (reversed)
finished words in `acc`; words are separated by spaces and newlines. -/
def wordsCore : List Char → List Char → List String → List Char × List String
  | [], cur, acc => (cur, acc)
  | c :: rest, cur, acc =>
    if c = ' ' ∨ c = '\n' then
      if cur = [] then wordsCore rest [] acc
      else wordsCore rest [] (String.mk cur.reverse :: acc)
    else wordsCore rest (c :: cur) acc

/-- Turns a final word-scanner state into the scanned word list. -/
def wordsFin : List Char × List String → List String
  | (cur, acc) =>
    if cur = [] then acc.reverse else (String.mk cur.reverse :: acc).reverse

/-- The whitespace-separated words of a string. -/
def wordsOf (s : String) : List String := wordsFin (wordsCore s.data [] [])

/-- ASCII decimal digit test. -/
def isDigitCh (c : Char) : Bool := 48 ≤ c.toNat && c.toNat ≤ 57

/-- The count a word conveys when it stands right before a bottle noun in
the output: a decimal numeral denotes its value, and the word `"more"`
(from "no more bottles") denotes the count 0. -/
def parseCount (w : String) : Option Nat :=
  if w = "more" then some 0
  else if w.data ≠ [] ∧ w.data.all isDigitCh = true then
    some (w.data.foldl (fun a c => 10 * a + (c.toNat - 48)) 0)
  else none

/-- Tail-recursive worker collecting, from a word list, every pair of a
word followed immediately by the noun `"bottle"` or `"bottles"`. -/
def bottleOccsAux : List String → List (String × String) → List (String × String)
  | [], acc => acc.reverse
  | [_], acc => acc.reverse
  | w1 :: w2 :: rest, acc =>
    if w2 = "bottle" ∨ w2 = "bottles" then bottleOccsAux (w2 :: rest) ((w1, w2) :: acc)
    else bottleOccsAux (w2 :: rest) acc

/-- Every occurrence of a bottle noun in `ws`, paired with the word
standing right before it. -/
def bottleOccs (ws : List String) : List (String × String) := bottleOccsAux ws []

/-- Tail-recursive count of the occurrences of one character in a list. -/
def countCharAux (ch : Char) : List Char → Nat → Nat
  | [], acc => acc
  | c :: rest, acc =>
    if c == ch then countCharAux ch rest (acc + 1) else countCharAux ch rest acc

/-- The number of occurrences of the character `ch` in the string `s`. -/
def countChar (ch : Char) (s : String) : Nat := countCharAux ch s.data 0

/-- Stack-friendly equality test on character lists. -/
def eqChars : List Char → List Char → Bool
  | a :: as, b :: bs => if a == b then eqChars as bs else false
  | [], [] => true
  | _, _ => false

/-- The last character of a string, tail-recursively. -/
def lastCharAux : List Char → Option Char → Option Char
  | [], r => r
  | c :: rest, _ => lastCharAux rest (some c)

/-- The last character of a string, if any. -/
def lastChar (s : String) : Option Char := lastCharAux s.data none

/-- Whether a word list does not begin with a bottle noun. -/
def headNotNoun : List String → Bool
  | [] => true
  | w :: _ => !(w == "bottle" || w == "bottles")

/-- The output, as the program builds it, cut into its natural pieces: the
99 verses in emission order followed by the closing couplet. -/
def pieces : List String := versesList 99 ++ [closing]

/-- Modelled from the spec: Line A of the verse for `n` as §4.1 words it,
`"{n} bottle{s} of beer on the wall, {n} bottle{s} of beer."` where `{s}`
is `""` if `n == 1` else `"s"`, both occurrences using the same `n`
(without the terminating newline). -/
def specLineA (n : Nat) : String :=
  Nat.repr n ++ " bottle" ++ (if n = 1 then "" else "s") ++
  " of beer on the wall, " ++
  Nat.repr n ++ " bottle" ++ (if n = 1 then "" else "s") ++ " of beer."

/-- Modelled from the spec: Line B of the verse for `n` as §4.1 words it,
with `{s'}` the singular/plural rule applied to `n-1` when `n-1 > 0`, and
the fixed "no more bottles" text when `n-1 == 0` (without the terminating
newline and blank line). -/
def specLineB (n : Nat) : String :=
  if n - 1 > 0 then
    "Take one down and pass it around, " ++ Nat.repr (n - 1) ++ " bottle" ++
      (if n - 1 = 1 then "" else "s") ++ " of beer on the wall."
  else
    "Take one down and pass it around, no more bottles of beer on the wall."

/-! ### Supporting lemmas -/

theorem loopTrace_eq (n : Nat) : ∀ out : String, loopTrace ⟨n, out⟩ = descList n := by
  induction n with
  | zero =>
    intro out
    rw [loopTrace]
    rfl
  | succ k ih =>
    intro out
    rw [loopTrace]
    rw [dif_pos (Nat.succ_le_succ (Nat.zero_le k))]
    show Nat.succ k :: loopTrace ⟨k, out ++ verse (Nat.succ k)⟩ = descList (Nat.succ k)
    rw [ih (out ++ verse (Nat.succ k))]
    rfl

theorem loopFinal_eq (n : Nat) :
    ∀ out : String, loopFinal ⟨n, out⟩ = ⟨0, loopFrom n out⟩ := by
  induction n with
  | zero =>
    intro out
    rw [loopFinal]
    rfl
  | succ k ih =>
    intro out
    rw [loopFinal]
    rw [dif_pos (Nat.succ_le_succ (Nat.zero_le k))]
    show loopFinal ⟨k, out ++ verse (Nat.succ k)⟩ = ⟨0, loopFrom (Nat.succ k) out⟩
    rw [ih (out ++ verse (Nat.succ k))]
    rfl

theorem eqChars_iff : ∀ a b : List Char, eqChars a b = true ↔ a = b := by
  intro a
  induction a with
  | nil =>
    intro b
    cases b with
    | nil => simp [eqChars]
    | cons c cs => simp [eqChars]
  | cons c cs ih =>
    intro b
    cases b with
    | nil => simp [eqChars]
    | cons d ds =>
      simp only [eqChars, List.cons.injEq]
      by_cases h : c = d
      · simp [h, ih ds]
      · simp [h, beq_eq_false_iff_ne.mpr h]

theorem string_eq_of_data {a b : String} (h : a.data = b.data) : a = b := by
  cases a
  cases b
  exact congrArg String.mk h

theorem str_data_append (a b : String) : (a ++ b).data = a.data ++ b.data := by
  cases a
  cases b
  rfl

theorem str_empty_append (s : String) : "" ++ s = s := by
  cases s
  rfl

theorem str_append_empty (s : String) : s ++ "" = s := by
  apply string_eq_of_data
  rw [str_data_append]
  exact List.append_nil _

theorem str_append_assoc (a b c : String) : a ++ b ++ c = a ++ (b ++ c) := by
  apply string_eq_of_data
  rw [str_data_append, str_data_append, str_data_append, str_data_append]
  exact List.append_assoc _ _ _

theorem concatAll_snoc : ∀ (l : List String) (x : String),
    concatAll (l ++ [x]) = concatAll l ++ x
  | [], x => by
    show x ++ "" = "" ++ x
    rw [str_append_empty, str_empty_append]
  | s :: rest, x => by
    show s ++ concatAll (rest ++ [x]) = s ++ concatAll rest ++ x
    rw [concatAll_snoc rest x, str_append_assoc]

theorem loopFrom_concat : ∀ (n : Nat) (acc : String),
    loopFrom n acc = acc ++ concatAll (versesList n)
  | 0, acc => by
    show acc = acc ++ ""
    rw [str_append_empty]
  | Nat.succ k, acc => by
    show loopFrom k (acc ++ verse (Nat.succ k)) =
      acc ++ concatAll (versesList (Nat.succ k))
    rw [loopFrom_concat k (acc ++ verse (Nat.succ k))]
    show acc ++ verse (Nat.succ k) ++ concatAll (versesList k) =
      acc ++ (verse (Nat.succ k) ++ concatAll (versesList k))
    rw [str_append_assoc]

theorem output_pieces : output = concatAll pieces := by
  show loopFrom 99 "" ++ closing = concatAll (versesList 99 ++ [closing])
  rw [concatAll_snoc, loopFrom_concat 99 "", str_empty_append]

theorem descList_mem (n m : Nat) : m ∈ descList n ↔ 1 ≤ m ∧ m ≤ n := by
  induction n with
  | zero =>
    simp only [descList, List.not_mem_nil, false_iff]
    omega
  | succ k ih =>
    simp only [descList, List.mem_cons, ih]
    omega

theorem countCharAux_acc (ch : Char) : ∀ (l : List Char) (acc : Nat),
    countCharAux ch l acc = acc + countCharAux ch l 0 := by
  intro l
  induction l with
  | nil =>
    intro acc
    simp [countCharAux]
  | cons c rest ih =>
    intro acc
    cases hc : c == ch with
    | true =>
      simp only [countCharAux, hc]
      rw [if_true, if_true, ih (acc + 1), ih (0 + 1)]
      omega
    | false =>
      simp only [countCharAux, hc]
      rw [if_neg Bool.false_ne_true, if_neg Bool.false_ne_true]
      exact ih acc

theorem countCharAux_append (ch : Char) : ∀ (a b : List Char) (acc : Nat),
    countCharAux ch (a ++ b) acc = countCharAux ch b (countCharAux ch a acc) := by
  intro a
  induction a with
  | nil =>
    intro b acc
    rfl
  | cons c rest ih =>
    intro b acc
    show countCharAux ch (c :: (rest ++ b)) acc = _
    cases hc : c == ch with
    | true =>
      simp only [countCharAux, hc]
      rw [if_true, if_true]
      exact ih b _
    | false =>
      simp only [countCharAux, hc]
      rw [if_neg Bool.false_ne_true, if_neg Bool.false_ne_true]
      exact ih b _

theorem countChar_append (ch : Char) (s t : String) :
    countChar ch (s ++ t) = countChar ch s + countChar ch t := by
  show countCharAux ch (s ++ t).data 0 = _
  rw [str_data_append, countCharAux_append, countCharAux_acc]
  rfl

theorem countChar_concatAll (ch : Char) : ∀ l : List String,
    countChar ch (concatAll l) = (l.map (countChar ch)).sum
  | [] => rfl
  | s :: rest => by
    show countChar ch (s ++ concatAll rest) = _
    rw [countChar_append, countChar_concatAll ch rest]
    show countChar ch s + (rest.map (countChar ch)).sum =
      ((s :: rest).map (countChar ch)).sum
    rw [List.map_cons, List.sum_cons]

theorem lastCharAux_append : ∀ (a b : List Char) (r : Option Char),
    lastCharAux (a ++ b) r = lastCharAux b (lastCharAux a r) := by
  intro a
  induction a with
  | nil =>
    intro b r
    rfl
  | cons c rest ih =>
    intro b r
    show lastCharAux (rest ++ b) (some c) = _
    exact ih b (some c)

theorem lastCharAux_irrel : ∀ (b : List Char) (r r' : Option Char), b ≠ [] →
    lastCharAux b r = lastCharAux b r' := by
  intro b r r' h
  cases b with
  | nil => exact absurd rfl h
  | cons c rest => rfl

theorem lastChar_append (s t : String) (h : t.data ≠ []) :
    lastChar (s ++ t) = lastChar t := by
  show lastCharAux (s ++ t).data none = lastCharAux t.data none
  rw [str_data_append, lastCharAux_append]
  exact lastCharAux_irrel t.data _ none h

theorem leadsWith_append : ∀ (pat l b : List Char), pat.length ≤ l.length →
    leadsWith pat (l ++ b) = leadsWith pat l := by
  intro pat
  induction pat with
  | nil =>
    intro l b _
    rfl
  | cons p ps ih =>
    intro l b h
    cases l with
    | nil => simp at h
    | cons c cs =>
      show (p == c && leadsWith ps (cs ++ b)) = (p == c && leadsWith ps cs)
      have h' : ps.length ≤ cs.length := by
        simp [List.length_cons] at h
        omega
      rw [ih cs b h']

theorem leadsWith_short : ∀ (pat l : List Char), l.length < pat.length →
    leadsWith pat l = false := by
  intro pat
  induction pat with
  | nil =>
    intro l h
    simp at h
  | cons p ps ih =>
    intro l h
    cases l with
    | nil => rfl
    | cons c cs =>
      show (p == c && leadsWith ps cs) = false
      have h' : cs.length < ps.length := by
        simp [List.length_cons] at h
        omega
      rw [ih cs h', Bool.and_false]

theorem leadsWith_mem : ∀ (l pat b : List Char), leadsWith pat (l ++ b) = true →
    l.length ≤ pat.length → ∀ c ∈ l, c ∈ pat := by
  intro l
  induction l with
  | nil =>
    intro pat b _ _ c hc
    simp at hc
  | cons x xs ih =>
    intro pat b h hlen c hc
    cases pat with
    | nil => simp [List.length_cons] at hlen
    | cons p ps =>
      simp only [List.cons_append, leadsWith, Bool.and_eq_true, beq_iff_eq] at h
      obtain ⟨hpx, hrest⟩ := h
      subst hpx
      rcases List.mem_cons.mp hc with rfl | hcxs
      · exact List.mem_cons_self _ _
      · have hlen' : xs.length ≤ ps.length := by
          simp [List.length_cons] at hlen
          omega
        exact List.mem_cons_of_mem _ (ih ps b hrest hlen' c hcxs)

theorem mem_of_getLast_nl : ∀ l : List Char, l.getLast? = some '\n' → '\n' ∈ l := by
  intro l
  induction l with
  | nil =>
    intro h
    simp at h
  | cons c rest ih =>
    intro h
    cases rest with
    | nil =>
      simp only [List.getLast?_singleton, Option.some.injEq] at h
      rw [h]
      exact List.mem_cons_self _ _
    | cons d ds =>
      rw [List.getLast?_cons_cons] at h
      exact List.mem_cons_of_mem _ (ih h)

theorem countOccsAux_acc (pat : List Char) : ∀ (l : List Char) (acc : Nat),
    countOccsAux pat l acc = acc + countOccsAux pat l 0 := by
  intro l
  induction l with
  | nil =>
    intro acc
    simp [countOccsAux]
  | cons c rest ih =>
    intro acc
    cases hres : leadsWith pat (c :: rest) with
    | true =>
      simp only [countOccsAux, hres]
      rw [if_true, if_true, ih (acc + 1), ih (0 + 1)]
      omega
    | false =>
      simp only [countOccsAux, hres]
      rw [if_neg Bool.false_ne_true, if_neg Bool.false_ne_true]
      exact ih acc

theorem countOccs_cons (pat : List Char) (c : Char) (rest : List Char) :
    countOccs pat (c :: rest) =
      (if leadsWith pat (c :: rest) = true then 1 else 0) + countOccs pat rest := by
  simp only [countOccs]
  cases hres : leadsWith pat (c :: rest) with
  | true =>
    simp only [countOccsAux, hres]
    rw [if_true, if_true, countOccsAux_acc pat rest (0 + 1)]
  | false =>
    simp only [countOccsAux, hres]
    rw [if_neg Bool.false_ne_true, if_neg Bool.false_ne_true]
    omega

theorem countOccs_append_sep (pat : List Char) (hnl : '\n' ∉ pat) :
    ∀ (a b : List Char), a.getLast? = some '\n' →
      countOccs pat (a ++ b) = countOccs pat a + countOccs pat b := by
  intro a
  induction a with
  | nil =>
    intro b h
    simp at h
  | cons x xs ih =>
    intro b hlast
    have hbit : leadsWith pat (x :: (xs ++ b)) = leadsWith pat (x :: xs) := by
      by_cases hl : pat.length ≤ (x :: xs).length
      · exact leadsWith_append pat (x :: xs) b hl
      · push_neg at hl
        rw [leadsWith_short pat (x :: xs) hl]
        cases hres : leadsWith pat (x :: (xs ++ b)) with
        | false => rfl
        | true =>
          exfalso
          exact hnl (leadsWith_mem (x :: xs) pat b hres (Nat.le_of_lt hl) '\n'
            (mem_of_getLast_nl (x :: xs) hlast))
    show countOccs pat (x :: (xs ++ b)) = countOccs pat (x :: xs) + countOccs pat b
    rw [countOccs_cons pat x (xs ++ b), countOccs_cons pat x xs, hbit]
    cases xs with
    | nil =>
      simp only [List.nil_append, countOccs, countOccsAux]
      omega
    | cons y ys =>
      have hlast' : (y :: ys).getLast? = some '\n' := by
        rwa [List.getLast?_cons_cons] at hlast
      rw [ih b hlast']
      omega

theorem countOccs_concatAll (pat : List Char) (hnl : '\n' ∉ pat) :
    ∀ l : List String, (∀ s ∈ l, s.data.getLast? = some '\n') →
      countOccs pat (concatAll l).data = (l.map (fun s => countOccs pat s.data)).sum := by
  intro l
  induction l with
  | nil =>
    intro _
    rfl
  | cons s rest ih =>
    intro hcond
    show countOccs pat (s ++ concatAll rest).data = _
    rw [str_data_append,
      countOccs_append_sep pat hnl s.data (concatAll rest).data
        (hcond s (List.mem_cons_self s rest)),
      ih (fun t ht => hcond t (List.mem_cons_of_mem s ht)),
      List.map_cons, List.sum_cons]

theorem wordsCore_append : ∀ (xs ys cur : List Char) (acc : List String),
    wordsCore (xs ++ ys) cur acc =
      wordsCore ys (wordsCore xs cur acc).1 (wordsCore xs cur acc).2 := by
  intro xs
  induction xs with
  | nil =>
    intro ys cur acc
    rfl
  | cons c rest ih =>
    intro ys cur acc
    show wordsCore (c :: (rest ++ ys)) cur acc = _
    by_cases hsep : c = ' ' ∨ c = '\n'
    · by_cases hcur : cur = []
      · simp only [wordsCore, if_pos hsep, if_pos hcur]
        exact ih ys [] acc
      · simp only [wordsCore, if_pos hsep, if_neg hcur]
        exact ih ys [] _
    · simp only [wordsCore, if_neg hsep]
      exact ih ys (c :: cur) acc

theorem wordsCore_frame : ∀ (cs cur : List Char) (acc : List String),
    wordsCore cs cur acc =
      ((wordsCore cs cur []).1, (wordsCore cs cur []).2 ++ acc) := by
  intro cs
  induction cs with
  | nil =>
    intro cur acc
    rfl
  | cons c rest ih =>
    intro cur acc
    by_cases hsep : c = ' ' ∨ c = '\n'
    · by_cases hcur : cur = []
      · simp only [wordsCore, if_pos hsep, if_pos hcur]
        exact ih [] acc
      · simp only [wordsCore, if_pos hsep, if_neg hcur]
        rw [ih [] (String.mk cur.reverse :: acc), ih [] [String.mk cur.reverse]]
        simp [List.append_assoc]
    · simp only [wordsCore, if_neg hsep]
      exact ih (c :: cur) acc

theorem wordsCore_flush : ∀ (cs cur : List Char) (acc : List String),
    cs.getLast? = some '\n' → (wordsCore cs cur acc).1 = [] := by
  intro cs
  induction cs with
  | nil =>
    intro cur acc h
    simp at h
  | cons c rest ih =>
    intro cur acc h
    cases rest with
    | nil =>
      simp only [List.getLast?_singleton, Option.some.injEq] at h
      subst h
      by_cases hcur : cur = []
      · simp [wordsCore, hcur]
      · simp [wordsCore, hcur]
    | cons d ds =>
      rw [List.getLast?_cons_cons] at h
      by_cases hsep : c = ' ' ∨ c = '\n'
      · by_cases hcur : cur = []
        · simp only [wordsCore, if_pos hsep, if_pos hcur]
          exact ih [] acc h
        · simp only [wordsCore, if_pos hsep, if_neg hcur]
          exact ih [] _ h
      · simp only [wordsCore, if_neg hsep]
        exact ih (c :: cur) acc h

theorem wordsFin_append (cur : List Char) (a b : List String) :
    wordsFin (cur, a ++ b) = b.reverse ++ wordsFin (cur, a) := by
  by_cases hcur : cur = []
  · simp [wordsFin, hcur, List.reverse_append]
  · simp [wordsFin, hcur, List.reverse_append, List.append_assoc]

theorem wordsFin_eta (p : List Char × List String) : wordsFin p = wordsFin (p.1, p.2) := by
  cases p
  rfl

theorem wordsOf_append_sep (s t : String) (h : s.data.getLast? = some '\n') :
    wordsOf (s ++ t) = wordsOf s ++ wordsOf t := by
  have h1 : (wordsCore s.data [] []).1 = [] := wordsCore_flush s.data [] [] h
  show wordsFin (wordsCore (s ++ t).data [] []) = _
  rw [str_data_append, wordsCore_append, h1,
    wordsCore_frame t.data [] (wordsCore s.data [] []).2,
    wordsFin_append]
  have h2 : wordsOf s = (wordsCore s.data [] []).2.reverse := by
    show wordsFin (wordsCore s.data [] []) = _
    rw [wordsFin_eta, h1]
    simp [wordsFin]
  have h3 : wordsOf t =
      wordsFin ((wordsCore t.data [] []).1, (wordsCore t.data [] []).2) := by
    show wordsFin (wordsCore t.data [] []) = _
    rw [← wordsFin_eta]
  rw [h2, h3]

theorem wordsOf_concatAll : ∀ l : List String,
    (∀ s ∈ l, s.data.getLast? = some '\n') →
      wordsOf (concatAll l) = (l.map wordsOf).flatten := by
  intro l
  induction l with
  | nil =>
    intro _
    rfl
  | cons s rest ih =>
    intro hcond
    show wordsOf (s ++ concatAll rest) = _
    rw [wordsOf_append_sep s (concatAll rest) (hcond s (List.mem_cons_self s rest)),
      ih (fun t ht => hcond t (List.mem_cons_of_mem s ht)),
      List.map_cons, List.flatten_cons]

theorem bottleOccsAux_acc : ∀ (ws : List String) (acc : List (String × String)),
    bottleOccsAux ws acc = acc.reverse ++ bottleOccsAux ws [] := by
  intro ws
  induction ws with
  | nil =>
    intro acc
    simp [bottleOccsAux]
  | cons w1 tail ih =>
    intro acc
    cases tail with
    | nil => simp [bottleOccsAux]
    | cons w2 rest =>
      by_cases hn : w2 = "bottle" ∨ w2 = "bottles"
      · simp only [bottleOccsAux, if_pos hn]
        rw [ih ((w1, w2) :: acc), ih [(w1, w2)]]
        simp [List.append_assoc]
      · simp only [bottleOccsAux, if_neg hn]
        exact ih acc

theorem bottleOccs_append : ∀ (ws1 ws2 : List String), headNotNoun ws2 = true →
    bottleOccs (ws1 ++ ws2) = bottleOccs ws1 ++ bottleOccs ws2 := by
  intro ws1
  induction ws1 with
  | nil =>
    intro ws2 _
    rfl
  | cons w1 tail ih =>
    intro ws2 h
    cases tail with
    | nil =>
      cases ws2 with
      | nil => rfl
      | cons w2 rest2 =>
        have hn : ¬ (w2 = "bottle" ∨ w2 = "bottles") := by
          simp [headNotNoun] at h
          tauto
        show bottleOccsAux (w1 :: w2 :: rest2) [] =
          bottleOccsAux [w1] [] ++ bottleOccsAux (w2 :: rest2) []
        simp only [bottleOccsAux, if_neg hn]
        simp [bottleOccsAux]
    | cons w2 rest =>
      by_cases hn : w2 = "bottle" ∨ w2 = "bottles"
      · show bottleOccsAux (w1 :: w2 :: (rest ++ ws2)) [] =
          bottleOccsAux (w1 :: w2 :: rest) [] ++ bottleOccs ws2
        simp only [bottleOccsAux, if_pos hn]
        rw [bottleOccsAux_acc (w2 :: (rest ++ ws2)) [(w1, w2)],
          bottleOccsAux_acc (w2 :: rest) [(w1, w2)]]
        have ih' : bottleOccsAux (w2 :: (rest ++ ws2)) [] =
            bottleOccsAux (w2 :: rest) [] ++ bottleOccs ws2 := by
          have := ih ws2 h
          simpa [bottleOccs] using this
        rw [ih']
        simp [List.append_assoc]
      · show bottleOccsAux (w1 :: w2 :: (rest ++ ws2)) [] =
          bottleOccsAux (w1 :: w2 :: rest) [] ++ bottleOccs ws2
        simp only [bottleOccsAux, if_neg hn]
        have := ih ws2 h
        simpa [bottleOccs] using this

theorem headNotNoun_flatten : ∀ ls : List (List String),
    (∀ ws ∈ ls, ws ≠ [] ∧ headNotNoun ws = true) → headNotNoun ls.flatten = true := by
  intro ls
  induction ls with
  | nil =>
    intro _
    rfl
  | cons ws rest ih =>
    intro h
    obtain ⟨hne, hh⟩ := h ws (List.mem_cons_self _ _)
    cases ws with
    | nil => exact absurd rfl hne
    | cons w tail =>
      show headNotNoun (w :: (tail ++ rest.flatten)) = true
      exact hh

theorem bottleOccs_flatten : ∀ ls : List (List String),
    (∀ ws ∈ ls, ws ≠ [] ∧ headNotNoun ws = true) →
      bottleOccs ls.flatten = (ls.map bottleOccs).flatten := by
  intro ls
  induction ls with
  | nil =>
    intro _
    rfl
  | cons ws rest ih =>
    intro h
    show bottleOccs (ws ++ rest.flatten) = _
    rw [bottleOccs_append ws rest.flatten
        (headNotNoun_flatten rest (fun t ht => h t (List.mem_cons_of_mem ws ht))),
      ih (fun t ht => h t (List.mem_cons_of_mem ws ht)),
      List.map_cons, List.flatten_cons]

set_option maxHeartbeats 4000000

/-! ### The claims -/

/-- Claim C1: for every integer n from 99 down to 1, the first line of the
verse for n is exactly "{n} bottle{s} of beer on the wall, {n} bottle{s} of
beer." followed by a newline, where {s} is empty iff n = 1 and both
occurrences of {n} and {s} use the same n. -/
theorem claim_C1_lineA (n : Nat) (h2 : n ≤ 99) (h1 : 1 ≤ n) :
    (linesOf (verse n)).head? = some (specLineA n) ∧
    2 ≤ (linesOf (verse n)).length := by
  revert h1
  revert h2
  revert n
  decide

/-- Witness for C1, at n = 99. -/
theorem claim_C1_witness :
    (linesOf (verse 99)).head? = some (specLineA 99) ∧
    2 ≤ (linesOf (verse 99)).length :=
  claim_C1_lineA 99 (by decide) (by decide)

/-- Claim C2: for every integer n from 99 down to 1, the second line of the
verse for n is the spec's Line B (with the pluralization rule applied to
n-1 when n-1 > 0, and the fixed "no more bottles" text when n-1 = 0), and
the verse is terminated by a blank line after this second line, with
nothing further. -/
theorem claim_C2_lineB (n : Nat) (h2 : n ≤ 99) (h1 : 1 ≤ n) :
    (linesOf (verse n)).get? 1 = some (specLineB n) ∧
    (linesOf (verse n)).get? 2 = some "" ∧
    (linesOf (verse n)).length = 4 := by
  revert h1
  revert h2
  revert n
  decide

/-- Witness for C2, at n = 1 (the fixed-text branch of Line B). -/
theorem claim_C2_witness :
    (linesOf (verse 1)).get? 1 = some (specLineB 1) ∧
    (linesOf (verse 1)).get? 2 = some "" ∧
    (linesOf (verse 1)).length = 4 :=
  claim_C2_lineB 1 (by decide) (by decide)

/-- Claim C3: the program emits exactly 99 verses, one per integer n from
99 down to 1 in exactly that descending order, with no other verses before,
between, or after them: the emitted verse list is the map of `verse` over
[99, 98, ..., 1], and the whole output is its concatenation followed only
by the closing couplet. -/
theorem claim_C3_verses :
    (versesList 99).length = 99 ∧
    versesList 99 = (descList 99).map verse ∧
    (descList 99).head? = some 99 ∧
    (descList 99).getLast? = some 1 ∧
    (∀ p ∈ (descList 99).zip (descList 99).tail, p.1 = p.2 + 1) ∧
    output = concatAll (versesList 99) ++ closing := by
  refine ⟨by decide, by decide, by decide, by decide, by decide, ?_⟩
  show loopFrom 99 "" ++ closing = _
  rw [loopFrom_concat 99 "", str_empty_append]

/-- Claim C4: for every count emitted together with a bottle noun anywhere
in the output, the noun is the singular "bottle" if and only if that count
equals 1; every other count, including 0 (rendered as "no more bottles"),
takes the plural "bottles".  There are exactly 300 such count/noun
occurrences, and the singular one does occur. -/
theorem claim_C4_pluralization :
    (bottleOccs (wordsOf output)).length = 300 ∧
    ("1", "bottle") ∈ bottleOccs (wordsOf output) ∧
    ∀ p ∈ bottleOccs (wordsOf output),
      (parseCount p.1).isSome = true ∧ (p.2 = "bottle" ↔ parseCount p.1 = some 1) := by
  have hsep : ∀ s ∈ pieces, s.data.getLast? = some '\n' := by decide
  have hw : wordsOf output = (pieces.map wordsOf).flatten := by
    rw [output_pieces]
    exact wordsOf_concatAll pieces hsep
  have hcond : ∀ ws ∈ pieces.map wordsOf, ws ≠ [] ∧ headNotNoun ws = true := by decide
  have hb : bottleOccs (wordsOf output) =
      ((pieces.map wordsOf).map bottleOccs).flatten := by
    rw [hw]
    exact bottleOccs_flatten (pieces.map wordsOf) hcond
  rw [hb]
  exact ⟨by decide, by decide, by decide⟩

/-- Claim C5: after the verse for n = 1 the program emits exactly the two
final fixed lines, each newline-terminated, with no blank line after them
and no further output: the output is the loop's text (whose last verse is
the n = 1 verse) followed by exactly the two closing lines, `closing`
consists of exactly those two newline-terminated lines and contains no
blank line, and the output ends right at the final newline. -/
theorem claim_C5_closing :
    output = loopFrom 99 "" ++
      ("No more bottles of beer on the wall, no more bottles of beer.\n" ++
       "Go to the store and buy some more, 99 bottles of beer on the wall.\n") ∧
    (versesList 99).getLast? = some (verse 1) ∧
    linesOf closing =
      ["No more bottles of beer on the wall, no more bottles of beer.",
       "Go to the store and buy some more, 99 bottles of beer on the wall.", ""] ∧
    countChar '\n' closing = 2 ∧
    countOccs "\n\n".data closing.data = 0 ∧
    lastChar output = some '\n' := by
  refine ⟨rfl, by decide, by decide, by decide, by decide, ?_⟩
  rw [show output = loopFrom 99 "" ++ closing from rfl,
    lastChar_append (loopFrom 99 "") closing (by decide)]
  decide

/-- Claim C6: viewed as a state machine, the loop counter starts at 99,
strictly decreases by exactly 1 at each iteration, the loop body runs
exactly once for each n from 99 down to 1 (and for no other n, in
particular not for n = 0), the loop exits with n = 0, and the closing
couplet is appended after the loop rather than generated as a verse. -/
theorem claim_C6_state_machine :
    loopTrace ⟨99, ""⟩ = descList 99 ∧
    (loopTrace ⟨99, ""⟩).length = 99 ∧
    (loopTrace ⟨99, ""⟩).head? = some 99 ∧
    (∀ p ∈ (loopTrace ⟨99, ""⟩).zip (loopTrace ⟨99, ""⟩).tail, p.1 = p.2 + 1) ∧
    (∀ m : Nat, m ∈ loopTrace ⟨99, ""⟩ ↔ 1 ≤ m ∧ m ≤ 99) ∧
    0 ∉ loopTrace ⟨99, ""⟩ ∧
    loopFinal ⟨99, ""⟩ = ⟨0, loopFrom 99 ""⟩ ∧
    output = (loopFinal ⟨99, ""⟩).out ++ closing := by
  have ht : loopTrace ⟨99, ""⟩ = descList 99 := loopTrace_eq 99 ""
  have hf : loopFinal ⟨99, ""⟩ = ⟨0, loopFrom 99 ""⟩ := loopFinal_eq 99 ""
  refine ⟨ht, ?_, ?_, ?_, ?_, ?_, hf, ?_⟩
  · rw [ht]
    decide
  · rw [ht]
    decide
  · rw [ht]
    decide
  · intro m
    rw [ht]
    exact descList_mem 99 m
  · rw [ht]
    decide
  · rw [hf]
    rfl

/-- Claim C7: the phrase "no more bottles" appears exactly twice in the
entire output: once in Line B of the verse for n = 1 and once in the
closing couplet (namely in its first line, "No more bottles of beer on the
wall, no more bottles of beer."). -/
theorem claim_C7_no_more_twice :
    countOccs "no more bottles".data output.data = 2 ∧
    countOccs "no more bottles".data (lineB 1).data = 1 ∧
    countOccs "no more bottles".data closing.data = 1 := by
  refine ⟨?_, by decide, by decide⟩
  rw [output_pieces,
    countOccs_concatAll "no more bottles".data (by decide) pieces (by decide)]
  decide

/-- Counterexample to claim C8 as stated: at n = 99, Line A does contain
"99" exactly twice, but Line B contains "98" only once, not twice. -/
theorem claim_C8_counterexample :
    ¬ (countOccs (Nat.repr 99).data (lineA 99).data = 2 ∧
       countOccs (Nat.repr 98).data (lineB 99).data = 2) := by decide

/-- Claim C8 as amended: for all n in [2, 99], the verse for n contains the
literal decimal count n exactly twice in Line A and the literal decimal
count n-1 exactly once in Line B. -/
theorem claim_C8_amended (n : Nat) (h2 : n ≤ 99) (h1 : 2 ≤ n) :
    countOccs (Nat.repr n).data (lineA n).data = 2 ∧
    countOccs (Nat.repr (n - 1)).data (lineB n).data = 1 := by
  revert h1
  revert h2
  revert n
  decide

/-- Witness for the amended C8, at n = 42. -/
theorem claim_C8_witness :
    countOccs (Nat.repr 42).data (lineA 42).data = 2 ∧
    countOccs (Nat.repr 41).data (lineB 42).data = 1 :=
  claim_C8_amended 42 (by decide) (by decide)

/-- Claim C9: the program is deterministic: its output and exit code do not
depend on arguments, stdin, time, or randomness, so any two runs produce
byte-identical output. -/
theorem claim_C9_deterministic (e1 e2 : Env) : runProgram e1 = runProgram e2 := rfl

/-- Witness for C9 at two concrete, different environments. -/
theorem claim_C9_witness :
    runProgram ⟨[], "", 0, 0⟩ = runProgram ⟨["arg"], "input", 123, 456⟩ :=
  claim_C9_deterministic ⟨[], "", 0, 0⟩ ⟨["arg"], "input", 123, 456⟩

/-- Claim C10: the complete output consists of exactly 299
newline-terminated lines (the final character is a newline): 99 verses of 3
newline-terminated lines each (297 in the loop text) plus the 2 closing
lines. -/
theorem claim_C10_line_count :
    countChar '\n' output = 299 ∧
    lastChar output = some '\n' ∧
    countChar '\n' (loopFrom 99 "") = 297 ∧
    countChar '\n' closing = 2 ∧
    (∀ n : Nat, n ≤ 99 → 1 ≤ n → countChar '\n' (verse n) = 3) := by
  have hv : countChar '\n' (loopFrom 99 "") = 297 := by
    rw [loopFrom_concat 99 "", str_empty_append, countChar_concatAll]
    decide
  have hc : countChar '\n' closing = 2 := by decide
  refine ⟨?_, ?_, hv, hc, ?_⟩
  · rw [show output = loopFrom 99 "" ++ closing from rfl, countChar_append, hv, hc]
  · rw [show output = loopFrom 99 "" ++ closing from rfl,
      lastChar_append (loopFrom 99 "") closing (by decide)]
    decide
  · decide
